import Mathlib

/-!
Verification of the Reflector component of a Kubernetes list/watch client.

The Reflector maintains a local cache of a remote collection (a map from
string keys to items), keeps it current through relist and watch phases,
and publishes every transition to an append-only event log that any number
of observers drain independently.

The embedding below translates the TypeScript class field by field:
the JS `Map` becomes an insertion-ordered association list, the WeakMap
linked chain of log entries becomes a `List` of events addressed by
integer cursors (a cursor is the number of events appended before it,
which corresponds one-to-one with the chain of fresh reference tokens),
and each method becomes a pure state-passing function.  A thrown JS
exception is modelled by returning the state at the throw point together
with the exception message.
-/

namespace Reflector

/-- Metadata fields of a raw (not yet validated) item; every field is
optional, as in the `KindIds` source type.  `none` stands for a field that
is absent, `null` or `undefined`. -/
structure RawMeta where
  name : Option String
  ns : Option String
  uid : Option String
  resourceVersion : Option String
deriving DecidableEq, Repr

/-- A raw item as returned by the lister or the watcher: possibly missing
`metadata` entirely.  `payloadData` stands for the remaining fields of the
generic item type `T`. -/
structure RawItem where
  metadata : Option RawMeta
  payloadData : String
deriving DecidableEq, Repr

/-- An item that passed the identity check (`KindIdsReq`): `name`, `uid`
and `resourceVersion` are present; the namespace may still be absent. -/
structure Item where
  name : String
  ns : Option String
  uid : String
  resourceVersion : String
  payloadData : String
deriving DecidableEq, Repr

/-- `isKeyed` from the source: metadata present and `name`,
`resourceVersion`, `uid` all non-null. -/
def isKeyed (r : RawItem) : Bool :=
  match r.metadata with
  | none => false
  | some m => m.name.isSome && m.resourceVersion.isSome && m.uid.isSome

/-- The validated view of a raw item, `some` exactly when `isKeyed`. -/
def toKeyed (r : RawItem) : Option Item :=
  match r.metadata with
  | some ⟨some n, ns, some u, some rv⟩ => some ⟨n, ns, u, rv, r.payloadData⟩
  | _ => none

/-- Reinject a validated item into its raw form. -/
def toRaw (i : Item) : RawItem :=
  ⟨some ⟨some i.name, i.ns, some i.uid, some i.resourceVersion⟩, i.payloadData⟩

/-- JS template-literal stringification of the namespace field: an absent
namespace is interpolated as the string "undefined" (a `null` one would
print "null"; either way, not the empty string). -/
def nsStr : Option String → String
  | some s => s
  | none => "undefined"

/-- The cache key computed by `run`. -/
def keyOf (i : Item) : String := nsStr i.ns ++ "/" ++ i.name

/-- The `ApiStatus` error payload. -/
structure Status where
  code : Option Int
  message : Option String
  reason : Option String
  status : Option String
deriving DecidableEq, Repr

/-- The status object `stop` emits: `{reason: "ReflectorStopped"}`. -/
def stoppedStatus : Status := ⟨none, none, some "ReflectorStopped", none⟩

/-- Events appended to the Reflector event log (`ReflectorEvent`). -/
inductive REvent
  | added (obj : Item)
  | modified (obj : Item) (previous : Item)
  | deleted (obj : Item)
  | bookmark (rv : String)
  | synced (rv : String)
  | desynced
  | error (status : Status)
deriving DecidableEq, Repr

/-- Discriminator of an object-carrying watch event. -/
inductive WKind
  | added
  | modified
  | deleted
deriving DecidableEq, Repr

/-- The `evt.type` string of an object-carrying watch event. -/
def kindName : WKind → String
  | .added => "ADDED"
  | .modified => "MODIFIED"
  | .deleted => "DELETED"

/-- An incoming event from the watch stream (`WatchEvent` contract). -/
inductive WEvent
  | item (kind : WKind) (obj : RawItem)
  | bookmark (rv : String)
  | error (status : Status)
deriving DecidableEq, Repr

/-- The mutable fields of the Reflector.  The WeakMap linked chain of log
entries is represented by `log`, with the token `latestRef` corresponding
to the cursor `log.length`. -/
structure ReflectorState where
  resources : List (String × Item)
  latestVersion : Option String
  log : List REvent
  cancelled : Bool
deriving DecidableEq, Repr

/-- The state of a freshly constructed Reflector. -/
def reflectorInit : ReflectorState :=
  ⟨[], none, [], false⟩

/-- JS `Map.get`. -/
def mapGet : List (String × Item) → String → Option Item
  | [], _ => none
  | p :: rest, k => if p.1 == k then some p.2 else mapGet rest k

/-- JS `Map.set`: replaces in place if the key exists, appends otherwise. -/
def mapSet : List (String × Item) → String → Item → List (String × Item)
  | [], k, v => [(k, v)]
  | p :: rest, k, v => if p.1 == k then (k, v) :: rest else p :: mapSet rest k v

/-- JS `Map.delete` (as used here: removes the entry with the key). -/
def mapDelete : List (String × Item) → String → List (String × Item)
  | [], _ => []
  | p :: rest, k => if p.1 == k then mapDelete rest k else p :: mapDelete rest k

/-- The keys of a cache, in insertion order. -/
def keysOf (m : List (String × Item)) : List String := m.map Prod.fst

/-- Boolean membership test on a key list. -/
def keyMem : List String → String → Bool
  | [], _ => false
  | k' :: rest, k => (k' == k) || keyMem rest k

/-- `Reflector._emit`: append one event to the log (advancing the latest
token) and record the new version if one was supplied. -/
def emitEvent (st : ReflectorState) (evt : REvent) (refVersion : Option String) :
    ReflectorState :=
  { st with
    log := st.log ++ [evt]
    latestVersion :=
      match refVersion with
      | some v => some v
      | none => st.latestVersion }

/-- `Reflector.getCached`: looks up `namespace + "/" + name` (the
`namespace||''` in the source is the identity on string arguments). -/
def getCached (st : ReflectorState) (ns name : String) : Option Item :=
  mapGet st.resources (ns ++ "/" ++ name)

/-- `Reflector.listCached`. -/
def listCached (st : ReflectorState) : List Item :=
  st.resources.map Prod.snd

/-- JS truthiness of an optional string: present and non-empty. -/
def jsTruthy : Option String → Bool
  | some v => v != ""
  | none => false

/-- `Reflector.isSynced`: `!!latestVersion`. -/
def isSynced (st : ReflectorState) : Bool :=
  jsTruthy st.latestVersion

/-- JS `a || d` on an optional string. -/
def jsOrDefault (o : Option String) (d : String) : String :=
  match o with
  | some v => if v = "" then d else v
  | none => d

/-- The `resourceVersion` argument the synchronization loop passes to the
lister at the start of a relist phase: `latestVersion || "0"`. -/
def listFrom (st : ReflectorState) : String :=
  jsOrDefault st.latestVersion "0"

/-- `Reflector.stop`.  It always throws; the returned string is the
message of the exception (`stop` never returns normally).  A first call
flags cancellation and emits a terminal `ERROR` event before throwing;
any later call throws the double-cancel usage error without touching the
state. -/
def stop (st : ReflectorState) : ReflectorState × String :=
  if st.cancelled then (st, "BUG: double-cancel")
  else
    (emitEvent { st with cancelled := true } (.error stoppedStatus) none,
     "TODO: a ton of cleanup")

/-- A list response from the lister (`ListOf`). -/
structure ListResp where
  resourceVersion : Option String
  items : List RawItem
deriving DecidableEq, Repr

/-- Outcome of the per-item half of a relist: the updated state plus the
surviving `missingItems` map, or the state at a thrown integrity error. -/
inductive ListPhase
  | ok (st : ReflectorState) (missing : List (String × Item))
  | thrown (st : ReflectorState) (msg : String)
deriving DecidableEq, Repr

/-- The `for (const item of list.items)` loop of `run`: diff each returned
item against the cache, emitting `ADDED` for new keys and `MODIFIED` for
changed versions, and narrowing the `missingItems` map. -/
def processListItems (lv : String) :
    ReflectorState → List (String × Item) → List RawItem → ListPhase
  | st, missing, [] => .ok st missing
  | st, missing, raw :: rest =>
    match toKeyed raw with
    | none => .thrown st ("BUG: got unkeyed item from list " ++ lv)
    | some item =>
      match mapGet st.resources (keyOf item) with
      | some known =>
        if known.resourceVersion ≠ item.resourceVersion then
          processListItems lv
            (emitEvent { st with resources := mapSet st.resources (keyOf item) item }
              (.modified item known) none)
            (mapDelete missing (keyOf item)) rest
        else
          processListItems lv st (mapDelete missing (keyOf item)) rest
      | none =>
        processListItems lv
          (emitEvent { st with resources := mapSet st.resources (keyOf item) item }
            (.added item) none)
          missing rest

/-- The `for (const [key, item] of missingItems)` loop of `run`: drop each
stale entry from the cache and emit `DELETED`. -/
def processDeletions : ReflectorState → List (String × Item) → ReflectorState
  | st, [] => st
  | st, (k, item) :: rest =>
    processDeletions
      (emitEvent { st with resources := mapDelete st.resources k } (.deleted item) none)
      rest

/-- Outcome of a whole relist phase. -/
inductive RelistResult
  | ok (st : ReflectorState)
  | thrown (st : ReflectorState) (msg : String)
deriving DecidableEq, Repr

/-- One relist phase of `run` (lines 149-177): version check, per-item
diff, deletions for missing keys, and the final `SYNCED` emission which
also records `latestVersion`. -/
def relist (st : ReflectorState) (resp : ListResp) : RelistResult :=
  let lv := resp.resourceVersion.getD ""
  if lv = "" then .thrown st "BUG: list had no version"
  else
    match processListItems lv st st.resources resp.items with
    | .thrown st' m => .thrown st' m
    | .ok st' missing' =>
      .ok (emitEvent (processDeletions st' missing') (.synced lv) (some lv))

/-- Control outcome of handling one event from the watch stream. -/
inductive WatchStep
  | cont (st : ReflectorState)
  | brk (st : ReflectorState)
  | fatal (st : ReflectorState) (msg : String)
  | ret (st : ReflectorState)
deriving DecidableEq, Repr

/-- The body of the `for await (const evt of watch)` loop of `run`
(lines 186-228): cancellation check, `ERROR` handling (break on
"Expired", otherwise forward and stop), `BOOKMARK`, and the three
object-carrying event kinds. -/
def processWatchEvent (st : ReflectorState) (evt : WEvent) : WatchStep :=
  if st.cancelled then .ret st
  else
    match evt with
    | .error status =>
      if status.reason = some "Expired" then .brk st
      else
        let st1 := emitEvent st (.error status) none
        let stopped := stop st1
        .fatal stopped.1 stopped.2
    | .bookmark rv => .cont (emitEvent st (.bookmark rv) (some rv))
    | .item kind raw =>
      match toKeyed raw with
      | none => .fatal st ("BUG: got unkeyed item from watch " ++ kindName kind)
      | some obj =>
        match kind with
        | .deleted =>
          .cont (emitEvent { st with resources := mapDelete st.resources (keyOf obj) }
            (.deleted obj) (some obj.resourceVersion))
        | .modified =>
          match mapGet st.resources (keyOf obj) with
          | none =>
            .cont (emitEvent { st with resources := mapSet st.resources (keyOf obj) obj }
              (.added obj) (some obj.resourceVersion))
          | some previous =>
            .cont (emitEvent { st with resources := mapSet st.resources (keyOf obj) obj }
              (.modified obj previous) (some obj.resourceVersion))
        | .added =>
          .cont (emitEvent { st with resources := mapSet st.resources (keyOf obj) obj }
            (.added obj) (some obj.resourceVersion))

/-- Which phase of `run` is about to consume input. -/
inductive Mode
  | listing
  | watching
deriving DecidableEq, Repr

/-- State of the `run` loop: the Reflector state plus the current phase. -/
structure RunState where
  st : ReflectorState
  mode : Mode
deriving DecidableEq, Repr

/-- One piece of external input consumed by `run`: a lister response, one
event pulled from the watch stream, or the clean end of a watch stream. -/
inductive RunInput
  | listResp (resp : ListResp)
  | watchEvt (e : WEvent)
  | watchEnd
deriving DecidableEq, Repr

/-- Result of one step of `run`: still looping, returned cleanly, or
halted by a thrown error. -/
inductive StepResult
  | running (rs : RunState)
  | returned (st : ReflectorState)
  | halted (st : ReflectorState) (msg : String)
deriving DecidableEq, Repr

/-- One step of the `run` loop, driven by the next piece of external
input.  On "Expired" the watch loop breaks and, after the cancellation
check of line 230, `run` emits `DESYNCED` with the version reset `""`
and goes back to the relist phase. -/
def runStep (rs : RunState) (inp : RunInput) : StepResult :=
  match rs.mode, inp with
  | .listing, .listResp resp =>
    if rs.st.cancelled then .returned rs.st
    else
      match relist rs.st resp with
      | .thrown st' m => .halted st' m
      | .ok st' => .running ⟨st', .watching⟩
  | .watching, .watchEvt e =>
    match processWatchEvent rs.st e with
    | .cont st' => .running ⟨st', .watching⟩
    | .ret st' => .returned st'
    | .fatal st' m => .halted st' m
    | .brk st' =>
      if st'.cancelled then .returned st'
      else .running ⟨emitEvent st' .desynced (some ""), .listing⟩
  | .watching, .watchEnd =>
    if rs.st.cancelled then .returned rs.st else .running rs
  | _, _ => .running rs

/-- The Reflector state embedded in a step result. -/
def stateOf : StepResult → ReflectorState
  | .running rs => rs.st
  | .returned st => st
  | .halted st _ => st

/-- The Reflector state embedded in a per-item relist outcome. -/
def phaseState : ListPhase → ReflectorState
  | .ok st _ => st
  | .thrown st _ => st

/-- The Reflector state embedded in a relist outcome. -/
def relistState : RelistResult → ReflectorState
  | .ok st => st
  | .thrown st _ => st

/-- The Reflector state embedded in a watch-event outcome. -/
def watchState : WatchStep → ReflectorState
  | .cont st => st
  | .brk st => st
  | .fatal st _ => st
  | .ret st => st

/-- Whether a log event is an `ERROR` (fatal to observers that see it). -/
def isErrorEvt : REvent → Bool
  | .error _ => true
  | _ => false

/-- Events an observer's replay loop yields from a log segment: all of
them up to and including the first `ERROR`, after which the observer
throws. -/
def takeUntilErr : List REvent → List REvent
  | [] => []
  | e :: rest => if isErrorEvt e then [e] else e :: takeUntilErr rest

/-- One pass of the observer's replay loop over the current log: starting
from cursor `c`, yield every available event (stopping at an `ERROR`),
returning the yielded events and the new cursor. -/
def drainFrom (log : List REvent) (c : Nat) : List REvent × Nat :=
  (takeUntilErr (log.drop c), c + (takeUntilErr (log.drop c)).length)

/-- The synchronous start of `observeAll` (lines 241-253): snapshot the
cache, the version and the log cursor, then yield the startup burst of
`ADDED` events followed by `SYNCED` when a version was known.  Returns
the yielded burst together with the snapshot cursor. -/
def observeStartup (st : ReflectorState) : List REvent × Nat :=
  (st.resources.map (fun p => REvent.added p.2) ++
     (match st.latestVersion with
      | some v => if v != "" then [REvent.synced v] else []
      | none => []),
   st.log.length)

/-- Events the per-item relist diff emits for one returned item, as a
function of the pre-relist cache. -/
def diffEv (res : List (String × Item)) (i : Item) : List REvent :=
  match mapGet res (keyOf i) with
  | none => [.added i]
  | some old =>
    if old.resourceVersion ≠ i.resourceVersion then [.modified i old] else []

/-- Concatenated diff events for a list of returned items. -/
def diffEvents (res : List (String × Item)) : List Item → List REvent
  | [] => []
  | i :: rest => diffEv res i ++ diffEvents res rest

/-- The `DELETED` events for the stale entries. -/
def deletedEvents (l : List (String × Item)) : List REvent :=
  l.map (fun p => REvent.deleted p.2)

/-- Predicate selecting cache entries whose key does not occur among the
given keys. -/
def keyNotIn (ks : List String) (p : String × Item) : Bool :=
  !(keyMem ks p.1)

/-- The cache contents after the per-item relist diff, as a function of
the pre-relist cache: a returned item overrides the cached entry exactly
when it is new or carries a different version. -/
def resUpd (res : List (String × Item)) (kitems : List Item) (k : String) :
    Option Item :=
  match kitems.find? (fun i => keyOf i == k) with
  | none => mapGet res k
  | some i =>
    match mapGet res k with
    | none => some i
    | some old =>
      if old.resourceVersion ≠ i.resourceVersion then some i else some old

/-- Every cache entry is stored under the key computed from its item. -/
def wellKeyed (m : List (String × Item)) : Prop :=
  ∀ p ∈ m, p.1 = keyOf p.2

instance (m : List (String × Item)) : Decidable (wellKeyed m) :=
  inferInstanceAs (Decidable (∀ p ∈ m, p.1 = keyOf p.2))

/-- No event of the segment is an `ERROR`. -/
def noErr (l : List REvent) : Prop :=
  ∀ e ∈ l, isErrorEvt e = false

instance (l : List REvent) : Decidable (noErr l) :=
  inferInstanceAs (Decidable (∀ e ∈ l, isErrorEvt e = false))

/-- A sequence of `_emit` calls, each given as event plus optional
version. -/
def emitMany (st : ReflectorState) (ems : List (REvent × Option String)) :
    ReflectorState :=
  ems.foldl (fun s pr => emitEvent s pr.1 pr.2) st

/-- The version strings a piece of run input supplies to the loop. -/
def stepVersions : RunInput → List String
  | .listResp resp =>
    match resp.resourceVersion with
    | some v => [v]
    | none => []
  | .watchEvt (.bookmark rv) => [rv]
  | .watchEvt (.item _ raw) =>
    match toKeyed raw with
    | some i => [i.resourceVersion]
    | none => []
  | _ => []

/-- The input is a watch error with reason "Expired". -/
def isExpiredInput : RunInput → Prop
  | .watchEvt (.error s) => s.reason = some "Expired"
  | _ => False

/-- A concrete namespaced item (name "a", version "1") for evaluations. -/
def demoItem : Item := ⟨"a", some "x", "u1", "1", ""⟩

/-- The same item at a newer resource version. -/
def demoItemV2 : Item := ⟨"a", some "x", "u1", "2", ""⟩

/-- A second cached item. -/
def demoItemB : Item := ⟨"b", some "x", "u2", "1", ""⟩

/-- A fresh item not previously cached. -/
def demoItemC : Item := ⟨"c", some "x", "u3", "2", ""⟩

/-- A concrete item that carries no namespace (a cluster-scoped resource). -/
def demoClusterItem : Item := ⟨"a", none, "u1", "1", ""⟩

/-- A raw item missing its `uid` (fails the identity check). -/
def demoUnkeyedRaw : RawItem := ⟨some ⟨some "a", some "x", none, some "1"⟩, ""⟩

/-- A watch error status with reason "Expired". -/
def expiredStatus : Status := ⟨none, none, some "Expired", none⟩

/-- A concrete synced Reflector state caching two items. -/
def demoCacheState : ReflectorState :=
  ⟨[("x/a", demoItem), ("x/b", demoItemB)], some "1", [], false⟩

/-- A concrete event log for observer evaluations. -/
def demoLog : List REvent := [REvent.added demoItem, REvent.synced "1"]

/-- A concrete log extension for observer evaluations. -/
def demoExt : List REvent := [REvent.bookmark "2", REvent.added demoItemC]

end Reflector

namespace Reflector

lemma toKeyed_toRaw (i : Item) : toKeyed (toRaw i) = some i := rfl

lemma mapGet_set_self (m : List (String × Item)) (k : String) (v : Item) :
    mapGet (mapSet m k v) k = some v := by
  induction m with
  | nil => simp [mapSet, mapGet]
  | cons p rest ih =>
    by_cases h : p.1 = k
    · simp [mapSet, mapGet, h]
    · simp [mapSet, mapGet, h, ih]

lemma mapGet_set_ne (m : List (String × Item)) (k k' : String) (v : Item)
    (h : k' ≠ k) : mapGet (mapSet m k v) k' = mapGet m k' := by
  induction m with
  | nil => simp [mapSet, mapGet, Ne.symm h]
  | cons p rest ih =>
    by_cases hp : p.1 = k
    · simp [mapSet, mapGet, hp, Ne.symm h]
    · by_cases hp' : p.1 = k'
      · subst hp'
        simp [mapSet, mapGet, hp]
      · simp [mapSet, mapGet, hp, hp', ih]

lemma mapGet_del_self (m : List (String × Item)) (k : String) :
    mapGet (mapDelete m k) k = none := by
  induction m with
  | nil => simp [mapDelete, mapGet]
  | cons p rest ih =>
    by_cases h : p.1 = k
    · simp [mapDelete, h, ih]
    · simp [mapDelete, mapGet, h, ih]

lemma mapGet_del_ne (m : List (String × Item)) (k k' : String)
    (h : k' ≠ k) : mapGet (mapDelete m k) k' = mapGet m k' := by
  induction m with
  | nil => simp [mapDelete]
  | cons p rest ih =>
    by_cases hp : p.1 = k
    · simp [mapDelete, mapGet, hp, Ne.symm h, ih]
    · simp [mapDelete, mapGet, hp, ih]

lemma mapDelete_eq_filter (m : List (String × Item)) (k : String) :
    mapDelete m k = m.filter (fun p => p.1 != k) := by
  induction m with
  | nil => simp [mapDelete]
  | cons p rest ih =>
    by_cases h : p.1 = k
    · simp [mapDelete, h, ih]
    · simp [mapDelete, h, ih]

lemma keyMem_iff (ks : List String) (k : String) :
    keyMem ks k = true ↔ k ∈ ks := by
  induction ks with
  | nil => simp [keyMem]
  | cons k' rest ih =>
    by_cases h : k' = k
    · subst h; simp [keyMem]
    · simp [keyMem, h, ih, Ne.symm h]

lemma mapGet_isSome_iff (m : List (String × Item)) (k : String) :
    (mapGet m k).isSome = true ↔ k ∈ keysOf m := by
  induction m with
  | nil => simp [mapGet, keysOf]
  | cons p rest ih =>
    by_cases h : p.1 = k
    · simp [mapGet, keysOf, h]
    · simp [mapGet, keysOf, h, ih, Ne.symm h]

lemma mem_mapGet_isSome (m : List (String × Item)) (p : String × Item)
    (h : p ∈ m) : (mapGet m p.1).isSome = true := by
  exact (mapGet_isSome_iff m p.1).mpr (List.mem_map_of_mem Prod.fst h)

lemma mapGet_eq_some_mem (m : List (String × Item)) (k : String) (v : Item)
    (h : mapGet m k = some v) : (k, v) ∈ m := by
  induction m with
  | nil => simp [mapGet] at h
  | cons p rest ih =>
    by_cases hp : p.1 = k
    · simp [mapGet, hp] at h
      subst h; subst hp
      exact List.mem_cons_self _ _
    · simp [mapGet, hp] at h
      exact List.mem_cons_of_mem _ (ih h)

lemma keysOf_mapSet (m : List (String × Item)) (k : String) (v : Item) :
    keysOf (mapSet m k v) =
      if keyMem (keysOf m) k then keysOf m else keysOf m ++ [k] := by
  induction m with
  | nil => simp [mapSet, keysOf, keyMem]
  | cons p rest ih =>
    simp only [keysOf] at ih ⊢
    by_cases hp : p.1 = k
    · simp [mapSet, keyMem, hp]
    · by_cases hk : keyMem (List.map Prod.fst rest) k
      · simp [mapSet, keyMem, hp, hk, ih]
      · simp [mapSet, keyMem, hp, hk, ih]

lemma mem_keysOf_mapSet (m : List (String × Item)) (k k' : String) (v : Item) :
    k' ∈ keysOf (mapSet m k v) ↔ (k' ∈ keysOf m ∨ k' = k) := by
  rw [keysOf_mapSet]
  by_cases hk : keyMem (keysOf m) k
  · have hmem := (keyMem_iff (keysOf m) k).mp hk
    simp only [hk, if_true]
    constructor
    · exact Or.inl
    · rintro (h | rfl)
      · exact h
      · exact hmem
  · simp [hk]

lemma nodupKeys_mapSet (m : List (String × Item)) (k : String) (v : Item)
    (h : (keysOf m).Nodup) : (keysOf (mapSet m k v)).Nodup := by
  rw [keysOf_mapSet]
  by_cases hk : keyMem (keysOf m) k
  · simpa [hk] using h
  · have hnot : k ∉ keysOf m := fun hc => hk ((keyMem_iff _ _).mpr hc)
    have heq : (if keyMem (keysOf m) k = true then keysOf m else keysOf m ++ [k]) =
        keysOf m ++ [k] := by simp [hk]
    rw [heq, List.nodup_append]
    refine ⟨h, List.nodup_singleton _, ?_⟩
    intro a ha hb
    rw [List.mem_singleton] at hb
    exact hnot (hb ▸ ha)

lemma nodupKeys_mapDelete (m : List (String × Item)) (k : String)
    (h : (keysOf m).Nodup) : (keysOf (mapDelete m k)).Nodup := by
  rw [mapDelete_eq_filter]
  exact ((List.filter_sublist m).map Prod.fst).nodup h

lemma nodupKeys_filter (m : List (String × Item)) (pred : String × Item → Bool)
    (h : (keysOf m).Nodup) : (keysOf (m.filter pred)).Nodup := by
  exact ((List.filter_sublist m).map Prod.fst).nodup h

lemma keyNotIn_cons (k : String) (ks : List String) (p : String × Item) :
    keyNotIn (k :: ks) p = ((p.1 != k) && keyNotIn ks p) := by
  have h1 : (k == p.1) = (p.1 == k) := by
    by_cases h : p.1 = k
    · simp [h]
    · simp [h, Ne.symm h]
  simp [keyNotIn, keyMem, h1, bne, Bool.not_or]

lemma filter_keyNotIn_nil (m : List (String × Item)) :
    m.filter (keyNotIn []) = m := by
  simp [keyNotIn, keyMem]

lemma filter_keyNotIn_delete (missing : List (String × Item)) (k : String)
    (ks : List String) :
    (mapDelete missing k).filter (keyNotIn ks) =
      missing.filter (keyNotIn (k :: ks)) := by
  rw [mapDelete_eq_filter, List.filter_filter]
  apply List.filter_congr
  intro p _
  rw [keyNotIn_cons]
  exact Bool.and_comm _ _

lemma find?_key_self (kitems : List Item) (i : Item) (hmem : i ∈ kitems)
    (hnd : (kitems.map keyOf).Nodup) :
    kitems.find? (fun j => keyOf j == keyOf i) = some i := by
  induction kitems with
  | nil => cases hmem
  | cons j rest ih =>
    rw [List.map_cons, List.nodup_cons] at hnd
    by_cases h : keyOf j = keyOf i
    · rcases List.mem_cons.mp hmem with he | hr
      · subst he; simp [List.find?_cons, h]
      · exact absurd (h ▸ List.mem_map_of_mem keyOf hr) hnd.1
    · have hr : i ∈ rest := by
        rcases List.mem_cons.mp hmem with he | hr
        · exact absurd (he ▸ rfl) h
        · exact hr
      simp only [List.find?_cons]
      have hb : (keyOf j == keyOf i) = false := by
        simp [h]
      rw [hb]
      exact ih hr hnd.2

lemma find?_key_none (kitems : List Item) (k : String)
    (h : ∀ i ∈ kitems, keyOf i ≠ k) :
    kitems.find? (fun j => keyOf j == k) = none := by
  rw [List.find?_eq_none]
  intro i hi
  simp [h i hi]

lemma diffEvents_congr (res₁ res₂ : List (String × Item)) (items : List Item)
    (h : ∀ i ∈ items, mapGet res₁ (keyOf i) = mapGet res₂ (keyOf i)) :
    diffEvents res₁ items = diffEvents res₂ items := by
  induction items with
  | nil => rfl
  | cons i rest ih =>
    rw [diffEvents, diffEvents, diffEv, diffEv, h i (List.mem_cons_self _ _),
      ih (fun j hj => h j (List.mem_cons_of_mem _ hj))]

end Reflector

namespace Reflector

lemma emitEvent_log (st : ReflectorState) (e : REvent) (r : Option String) :
    (emitEvent st e r).log = st.log ++ [e] := rfl

lemma emitEvent_cancelled (st : ReflectorState) (e : REvent) (r : Option String) :
    (emitEvent st e r).cancelled = st.cancelled := rfl

lemma emitEvent_resources (st : ReflectorState) (e : REvent) (r : Option String) :
    (emitEvent st e r).resources = st.resources := rfl

lemma emitEvent_none_latest (st : ReflectorState) (e : REvent) :
    (emitEvent st e none).latestVersion = st.latestVersion := rfl

lemma emitEvent_some_latest (st : ReflectorState) (e : REvent) (v : String) :
    (emitEvent st e (some v)).latestVersion = some v := rfl

lemma processListItems_frame (lv : String) (raws : List RawItem) :
    ∀ (st : ReflectorState) (missing : List (String × Item)),
    (phaseState (processListItems lv st missing raws)).latestVersion = st.latestVersion ∧
    (phaseState (processListItems lv st missing raws)).cancelled = st.cancelled ∧
    ∃ tl, (phaseState (processListItems lv st missing raws)).log = st.log ++ tl := by
  induction raws with
  | nil =>
    intro st missing
    exact ⟨rfl, rfl, [], (List.append_nil _).symm⟩
  | cons raw rest ih =>
    intro st missing
    cases hk : toKeyed raw with
    | none =>
      simp only [processListItems, hk]
      exact ⟨rfl, rfl, [], (List.append_nil _).symm⟩
    | some item =>
      simp only [processListItems, hk]
      cases hg : mapGet st.resources (keyOf item) with
      | none =>
        simp only [hg]
        obtain ⟨h1, h2, tl, h3⟩ :=
          ih (emitEvent { st with resources := mapSet st.resources (keyOf item) item }
            (.added item) none) missing
        refine ⟨by rw [h1]; rfl, by rw [h2]; rfl, [REvent.added item] ++ tl, ?_⟩
        rw [h3]
        simp [emitEvent]
      | some known =>
        simp only [hg]
        by_cases hrv : known.resourceVersion ≠ item.resourceVersion
        · simp only [if_pos hrv]
          obtain ⟨h1, h2, tl, h3⟩ :=
            ih (emitEvent { st with resources := mapSet st.resources (keyOf item) item }
              (.modified item known) none) (mapDelete missing (keyOf item))
          refine ⟨by rw [h1]; rfl, by rw [h2]; rfl, [REvent.modified item known] ++ tl, ?_⟩
          rw [h3]
          simp [emitEvent]
        · simp only [if_neg hrv]
          exact ih st (mapDelete missing (keyOf item))

lemma processDeletions_frame (dels : List (String × Item)) :
    ∀ st : ReflectorState,
    (processDeletions st dels).latestVersion = st.latestVersion ∧
    (processDeletions st dels).cancelled = st.cancelled ∧
    ∃ tl, (processDeletions st dels).log = st.log ++ tl := by
  induction dels with
  | nil =>
    intro st
    exact ⟨rfl, rfl, [], (List.append_nil _).symm⟩
  | cons p rest ih =>
    intro st
    obtain ⟨h1, h2, tl, h3⟩ :=
      ih (emitEvent { st with resources := mapDelete st.resources p.1 }
        (.deleted p.2) none)
    refine ⟨?_, ?_, [REvent.deleted p.2] ++ tl, ?_⟩
    · rw [processDeletions, h1]; rfl
    · rw [processDeletions, h2]; rfl
    · rw [processDeletions, h3]
      simp [emitEvent]

lemma relist_log (st : ReflectorState) (resp : ListResp) :
    ∃ tl, (relistState (relist st resp)).log = st.log ++ tl := by
  unfold relist
  by_cases hv : resp.resourceVersion.getD "" = ""
  · simp only [hv, if_pos]
    exact ⟨[], (List.append_nil _).symm⟩
  · simp only [hv, if_neg, if_false]
    cases hres : processListItems (resp.resourceVersion.getD "") st st.resources resp.items with
    | thrown st' m =>
      obtain ⟨_, _, tl, h3⟩ := processListItems_frame (resp.resourceVersion.getD "") resp.items st st.resources
      rw [hres] at h3
      exact ⟨tl, h3⟩
    | ok st' missing' =>
      obtain ⟨_, _, tl1, h3⟩ := processListItems_frame (resp.resourceVersion.getD "") resp.items st st.resources
      rw [hres] at h3
      obtain ⟨_, _, tl2, h4⟩ := processDeletions_frame missing' st'
      refine ⟨tl1 ++ tl2 ++ [REvent.synced (resp.resourceVersion.getD "")], ?_⟩
      simp only [relistState, emitEvent_log, h4]
      rw [show (phaseState (ListPhase.ok st' missing')) = st' from rfl] at h3
      rw [h3]
      simp [List.append_assoc]

lemma relist_thrown_latest (st : ReflectorState) (resp : ListResp)
    (st' : ReflectorState) (m : String) (h : relist st resp = .thrown st' m) :
    st'.latestVersion = st.latestVersion ∧ st'.cancelled = st.cancelled := by
  unfold relist at h
  by_cases hv : resp.resourceVersion.getD "" = ""
  · simp only [hv, if_pos] at h
    cases h
    exact ⟨rfl, rfl⟩
  · simp only [hv, if_neg, if_false] at h
    cases hres : processListItems (resp.resourceVersion.getD "") st st.resources resp.items with
    | thrown st'' m' =>
      rw [hres] at h
      cases h
      obtain ⟨h1, h2, _⟩ := processListItems_frame (resp.resourceVersion.getD "") resp.items st st.resources
      rw [hres] at h1 h2
      exact ⟨h1, h2⟩
    | ok st'' missing' =>
      rw [hres] at h
      cases h

lemma relist_ok_latest (st : ReflectorState) (resp : ListResp)
    (st' : ReflectorState) (h : relist st resp = .ok st') :
    ∃ v, resp.resourceVersion = some v ∧ v ≠ "" ∧ st'.latestVersion = some v ∧
      st'.cancelled = st.cancelled := by
  unfold relist at h
  by_cases hv : resp.resourceVersion.getD "" = ""
  · simp only [hv, if_pos] at h
    cases h
  · simp only [hv, if_neg, if_false] at h
    cases hres : processListItems (resp.resourceVersion.getD "") st st.resources resp.items with
    | thrown st'' m' =>
      rw [hres] at h
      cases h
    | ok st'' missing' =>
      rw [hres] at h
      cases h
      obtain ⟨hv2, hc2, _⟩ := processListItems_frame (resp.resourceVersion.getD "") resp.items st st.resources
      rw [hres] at hv2 hc2
      obtain ⟨hv3, hc3, _⟩ := processDeletions_frame missing' st''
      refine ⟨resp.resourceVersion.getD "", ?_, hv, rfl, ?_⟩
      · cases hrv : resp.resourceVersion with
        | none => rw [hrv] at hv; simp at hv
        | some v => rfl
      · rw [emitEvent_cancelled, hc3]
        exact hc2

end Reflector

namespace Reflector

lemma processWatchEvent_log (st : ReflectorState) (e : WEvent) :
    ∃ tl, (watchState (processWatchEvent st e)).log = st.log ++ tl := by
  cases hc : st.cancelled with
  | true =>
    simp only [processWatchEvent, hc, if_true]
    exact ⟨[], (List.append_nil _).symm⟩
  | false =>
    cases e with
    | error status =>
      by_cases hr : status.reason = some "Expired"
      · simp only [processWatchEvent, hc, hr, if_pos]
        simp only [Bool.false_eq_true, if_false, watchState]
        exact ⟨[], (List.append_nil _).symm⟩
      · refine ⟨[REvent.error status, REvent.error stoppedStatus], ?_⟩
        simp [processWatchEvent, hc, hr, watchState, stop, emitEvent]
    | bookmark rv =>
      refine ⟨[REvent.bookmark rv], ?_⟩
      simp [processWatchEvent, hc, watchState, emitEvent]
    | item kind raw =>
      cases hk : toKeyed raw with
      | none =>
        simp only [processWatchEvent, hc, hk]
        simp only [Bool.false_eq_true, if_false, watchState]
        exact ⟨[], (List.append_nil _).symm⟩
      | some obj =>
        cases kind with
        | added =>
          refine ⟨[REvent.added obj], ?_⟩
          simp [processWatchEvent, hc, hk, watchState, emitEvent]
        | modified =>
          cases hg : mapGet st.resources (keyOf obj) with
          | none =>
            refine ⟨[REvent.added obj], ?_⟩
            simp [processWatchEvent, hc, hk, hg, watchState, emitEvent]
          | some previous =>
            refine ⟨[REvent.modified obj previous], ?_⟩
            simp [processWatchEvent, hc, hk, hg, watchState, emitEvent]
        | deleted =>
          refine ⟨[REvent.deleted obj], ?_⟩
          simp [processWatchEvent, hc, hk, watchState, emitEvent]

lemma processWatchEvent_brk (st : ReflectorState) (e : WEvent) (st' : ReflectorState)
    (h : processWatchEvent st e = .brk st') :
    st' = st ∧ st.cancelled = false ∧
      ∃ s, e = .error s ∧ s.reason = some "Expired" := by
  cases hc : st.cancelled with
  | true =>
    simp only [processWatchEvent, hc, if_true] at h
    simp at h
  | false =>
    cases e with
    | error status =>
      by_cases hr : status.reason = some "Expired"
      · simp only [processWatchEvent, hc, Bool.false_eq_true, if_false] at h
        rw [if_pos hr] at h
        cases h
        exact ⟨rfl, rfl, status, rfl, hr⟩
      · simp only [processWatchEvent, hc, Bool.false_eq_true, if_false] at h
        rw [if_neg hr] at h
        simp at h
    | bookmark rv =>
      simp only [processWatchEvent, hc, Bool.false_eq_true, if_false] at h
      simp at h
    | item kind raw =>
      simp only [processWatchEvent, hc, Bool.false_eq_true, if_false] at h
      cases hk : toKeyed raw with
      | none => simp [hk] at h
      | some obj =>
        cases kind with
        | added => simp [hk] at h
        | modified =>
          cases hg : mapGet st.resources (keyOf obj) with
          | none => simp [hk, hg] at h
          | some previous => simp [hk, hg] at h
        | deleted => simp [hk] at h

lemma processWatchEvent_latest (st : ReflectorState) (e : WEvent) :
    (watchState (processWatchEvent st e)).latestVersion = st.latestVersion ∨
    (∃ v, v ∈ stepVersions (RunInput.watchEvt e) ∧
      (watchState (processWatchEvent st e)).latestVersion = some v) := by
  cases hc : st.cancelled with
  | true =>
    left
    simp [processWatchEvent, hc, watchState]
  | false =>
    cases e with
    | error status =>
      by_cases hr : status.reason = some "Expired"
      · left
        simp [processWatchEvent, hc, hr, watchState]
      · left
        simp [processWatchEvent, hc, hr, watchState, stop, emitEvent]
    | bookmark rv =>
      right
      refine ⟨rv, ?_, ?_⟩
      · simp [stepVersions]
      · simp [processWatchEvent, hc, watchState, emitEvent]
    | item kind raw =>
      cases hk : toKeyed raw with
      | none =>
        left
        simp [processWatchEvent, hc, hk, watchState]
      | some obj =>
        right
        refine ⟨obj.resourceVersion, ?_, ?_⟩
        · simp [stepVersions, hk]
        · cases kind with
          | added => simp [processWatchEvent, hc, hk, watchState, emitEvent]
          | modified =>
            cases hg : mapGet st.resources (keyOf obj) with
            | none => simp [processWatchEvent, hc, hk, hg, watchState, emitEvent]
            | some previous => simp [processWatchEvent, hc, hk, hg, watchState, emitEvent]
          | deleted => simp [processWatchEvent, hc, hk, watchState, emitEvent]

lemma runStep_log (rs : RunState) (inp : RunInput) :
    ∃ tl, (stateOf (runStep rs inp)).log = rs.st.log ++ tl := by
  cases hm : rs.mode with
  | listing =>
    cases inp with
    | listResp resp =>
      simp only [runStep, hm]
      cases hc : rs.st.cancelled with
      | true =>
        simp only [if_pos]
        exact ⟨[], (List.append_nil _).symm⟩
      | false =>
        simp only [Bool.false_eq_true, if_false]
        cases hres : relist rs.st resp with
        | thrown st' m =>
          obtain ⟨tl, h⟩ := relist_log rs.st resp
          rw [hres] at h
          exact ⟨tl, h⟩
        | ok st' =>
          obtain ⟨tl, h⟩ := relist_log rs.st resp
          rw [hres] at h
          exact ⟨tl, h⟩
    | watchEvt e =>
      simp only [runStep, hm, stateOf]
      exact ⟨[], (List.append_nil _).symm⟩
    | watchEnd =>
      simp only [runStep, hm, stateOf]
      exact ⟨[], (List.append_nil _).symm⟩
  | watching =>
    cases inp with
    | listResp resp =>
      simp only [runStep, hm, stateOf]
      exact ⟨[], (List.append_nil _).symm⟩
    | watchEvt e =>
      simp only [runStep, hm]
      cases hres : processWatchEvent rs.st e with
      | cont st' =>
        obtain ⟨tl, h⟩ := processWatchEvent_log rs.st e
        rw [hres] at h
        exact ⟨tl, h⟩
      | ret st' =>
        obtain ⟨tl, h⟩ := processWatchEvent_log rs.st e
        rw [hres] at h
        exact ⟨tl, h⟩
      | fatal st' m =>
        obtain ⟨tl, h⟩ := processWatchEvent_log rs.st e
        rw [hres] at h
        exact ⟨tl, h⟩
      | brk st' =>
        obtain ⟨tl, h⟩ := processWatchEvent_log rs.st e
        rw [hres] at h
        simp only [watchState] at h
        cases hc : st'.cancelled with
        | true =>
          refine ⟨tl, ?_⟩
          simp only [hc, if_pos, stateOf]
          exact h
        | false =>
          refine ⟨tl ++ [REvent.desynced], ?_⟩
          simp only [hc, Bool.false_eq_true, if_false, stateOf, emitEvent_log]
          rw [h]
          simp
    | watchEnd =>
      simp only [runStep, hm]
      cases hc : rs.st.cancelled with
      | true =>
        simp only [if_pos, stateOf]
        exact ⟨[], (List.append_nil _).symm⟩
      | false =>
        simp only [Bool.false_eq_true, if_false, stateOf]
        exact ⟨[], (List.append_nil _).symm⟩

lemma runStep_latest (rs : RunState) (inp : RunInput) :
    (stateOf (runStep rs inp)).latestVersion = rs.st.latestVersion ∨
    (∃ v, v ∈ stepVersions inp ∧
      (stateOf (runStep rs inp)).latestVersion = some v) ∨
    (isExpiredInput inp ∧ (stateOf (runStep rs inp)).latestVersion = some "") := by
  cases hm : rs.mode with
  | listing =>
    cases inp with
    | listResp resp =>
      simp only [runStep, hm]
      cases hc : rs.st.cancelled with
      | true => left; simp only [if_pos, stateOf]
      | false =>
        simp only [Bool.false_eq_true, if_false]
        cases hres : relist rs.st resp with
        | thrown st' m =>
          left
          simp only [stateOf]
          exact (relist_thrown_latest rs.st resp st' m hres).1
        | ok st' =>
          right; left
          obtain ⟨v, hv1, _, hv3, _⟩ := relist_ok_latest rs.st resp st' hres
          refine ⟨v, ?_, hv3⟩
          simp [stepVersions, hv1]
    | watchEvt e => left; simp [runStep, hm, stateOf]
    | watchEnd => left; simp [runStep, hm, stateOf]
  | watching =>
    cases inp with
    | listResp resp => left; simp [runStep, hm, stateOf]
    | watchEvt e =>
      simp only [runStep, hm]
      cases hres : processWatchEvent rs.st e with
      | cont st' =>
        have := processWatchEvent_latest rs.st e
        rw [hres] at this
        simp only [watchState] at this
        rcases this with h | ⟨v, hv1, hv2⟩
        · left; exact h
        · right; left; exact ⟨v, hv1, hv2⟩
      | ret st' =>
        have := processWatchEvent_latest rs.st e
        rw [hres] at this
        simp only [watchState] at this
        rcases this with h | ⟨v, hv1, hv2⟩
        · left; exact h
        · right; left; exact ⟨v, hv1, hv2⟩
      | fatal st' m =>
        have := processWatchEvent_latest rs.st e
        rw [hres] at this
        simp only [watchState] at this
        rcases this with h | ⟨v, hv1, hv2⟩
        · left; exact h
        · right; left; exact ⟨v, hv1, hv2⟩
      | brk st' =>
        obtain ⟨hst, hcan, s, hes, hreason⟩ := processWatchEvent_brk rs.st e st' hres
        subst hst
        right; right
        constructor
        · subst hes
          exact hreason
        · simp [hcan, stateOf, emitEvent]
    | watchEnd =>
      cases hc : rs.st.cancelled with
      | true => left; simp [runStep, hm, hc, stateOf]
      | false => left; simp [runStep, hm, hc, stateOf]

lemma takeUntilErr_of_noErr (l : List REvent) (h : noErr l) :
    takeUntilErr l = l := by
  induction l with
  | nil => rfl
  | cons e rest ih =>
    have he := h e (List.mem_cons_self _ _)
    rw [takeUntilErr, he]
    simp only [Bool.false_eq_true, if_false]
    rw [ih (fun x hx => h x (List.mem_cons_of_mem _ hx))]

lemma takeUntilErr_append_rest (l : List REvent) :
    ∃ rest, l = takeUntilErr l ++ rest := by
  induction l with
  | nil => exact ⟨[], rfl⟩
  | cons e tail ih =>
    by_cases he : isErrorEvt e = true
    · refine ⟨tail, ?_⟩
      rw [takeUntilErr, he]
      simp
    · obtain ⟨rest, hr⟩ := ih
      refine ⟨rest, ?_⟩
      rw [takeUntilErr]
      simp only [he]
      simp only [Bool.false_eq_true, if_false, List.cons_append]
      exact congrArg (e :: ·) hr

lemma drainFrom_noErr (log : List REvent) (c : Nat) (hc : c ≤ log.length)
    (h : noErr (log.drop c)) : drainFrom log c = (log.drop c, log.length) := by
  have hlen : c + (log.drop c).length = log.length := by
    rw [List.length_drop]
    omega
  simp only [drainFrom, takeUntilErr_of_noErr _ h, hlen]

lemma drainFrom_ext (log ext : List REvent) (h : noErr ext) :
    drainFrom (log ++ ext) log.length = (ext, log.length + ext.length) := by
  simp only [drainFrom, List.drop_left, takeUntilErr_of_noErr _ h]

end Reflector

namespace Reflector

lemma keysOf_cons (p : String × Item) (rest : List (String × Item)) :
    keysOf (p :: rest) = p.1 :: keysOf rest := rfl

lemma keyMem_cons_eq (k' : String) (rest : List String) (k : String) :
    keyMem (k' :: rest) k = ((k' == k) || keyMem rest k) := rfl

lemma processListItems_spec (lv : String) (kitems : List Item) :
    ∀ (st : ReflectorState) (missing : List (String × Item)),
    (keysOf st.resources).Nodup →
    (kitems.map keyOf).Nodup →
    (∀ p ∈ missing, (mapGet st.resources p.1).isSome = true) →
    ∃ res' : List (String × Item),
      processListItems lv st missing (kitems.map toRaw) =
        ListPhase.ok
          { st with
            resources := res',
            log := st.log ++ diffEvents st.resources kitems }
          (missing.filter (keyNotIn (kitems.map keyOf))) ∧
      (keysOf res').Nodup ∧
      (∀ k, mapGet res' k = resUpd st.resources kitems k) := by
  induction kitems with
  | nil =>
    intro st missing hnd _ _
    refine ⟨st.resources, ?_, hnd, fun k => rfl⟩
    simp [processListItems, diffEvents, filter_keyNotIn_nil]
  | cons i rest ih =>
    intro st missing hnd hks hmr
    rw [List.map_cons] at hks
    have hksc := List.nodup_cons.mp hks
    have hrestnd : (rest.map keyOf).Nodup := hksc.2
    have hrestne : ∀ j ∈ rest, keyOf j ≠ keyOf i := by
      intro j hj he
      exact hksc.1 (he ▸ List.mem_map_of_mem keyOf hj)
    cases hg : mapGet st.resources (keyOf i) with
    | none =>
      have hmr1 : ∀ p ∈ missing,
          (mapGet (mapSet st.resources (keyOf i) i) p.1).isSome = true := by
        intro p hp
        have hs := hmr p hp
        have hpk : p.1 ≠ keyOf i := by
          intro he
          rw [he, hg] at hs
          simp at hs
        rw [mapGet_set_ne _ _ _ _ hpk]
        exact hs
      obtain ⟨res', hP, hnd', hget⟩ :=
        ih (emitEvent { st with resources := mapSet st.resources (keyOf i) i }
            (.added i) none) missing
          (nodupKeys_mapSet _ _ _ hnd) hrestnd hmr1
      refine ⟨res', ?_, hnd', ?_⟩
      · simp only [List.map_cons, processListItems, toKeyed_toRaw, hg]
        rw [hP]
        have hcong : diffEvents (mapSet st.resources (keyOf i) i) rest =
            diffEvents st.resources rest := by
          apply diffEvents_congr
          intro j hj
          exact mapGet_set_ne _ _ _ _ (hrestne j hj)
        have hfil : missing.filter (keyNotIn (keyOf i :: rest.map keyOf)) =
            missing.filter (keyNotIn (rest.map keyOf)) := by
          apply List.filter_congr
          intro p hp
          have hs := hmr p hp
          have hpk : p.1 ≠ keyOf i := by
            intro he
            rw [he, hg] at hs
            simp at hs
          rw [keyNotIn_cons]
          simp [hpk]
        rw [hfil]
        congr 1
        simp [emitEvent, diffEvents, diffEv, hg, hcong]
      · intro k
        rw [hget k]
        by_cases hk : k = keyOf i
        · subst hk
          have hfr : rest.find? (fun j => keyOf j == keyOf i) = none :=
            find?_key_none rest (keyOf i) (fun j hj => hrestne j hj)
          simp [resUpd, emitEvent_resources, hfr, List.find?_cons, hg,
            mapGet_set_self]
        · have hb : (keyOf i == k) = false := by
            simp [Ne.symm hk]
          have hgk := mapGet_set_ne st.resources (keyOf i) k i hk
          simp only [resUpd, emitEvent_resources, List.find?_cons, hb, hgk]
    | some known =>
      by_cases hrv : known.resourceVersion ≠ i.resourceVersion
      · have hmr1 : ∀ p ∈ mapDelete missing (keyOf i),
            (mapGet (mapSet st.resources (keyOf i) i) p.1).isSome = true := by
          intro p hp
          rw [mapDelete_eq_filter] at hp
          have hpm := List.mem_of_mem_filter hp
          have hpk : p.1 ≠ keyOf i := by
            have := List.of_mem_filter hp
            simpa using this
          rw [mapGet_set_ne _ _ _ _ hpk]
          exact hmr p hpm
        obtain ⟨res', hP, hnd', hget⟩ :=
          ih (emitEvent { st with resources := mapSet st.resources (keyOf i) i }
              (.modified i known) none) (mapDelete missing (keyOf i))
            (nodupKeys_mapSet _ _ _ hnd) hrestnd hmr1
        refine ⟨res', ?_, hnd', ?_⟩
        · simp only [List.map_cons, processListItems, toKeyed_toRaw, hg, if_pos hrv]
          rw [hP]
          have hcong : diffEvents (mapSet st.resources (keyOf i) i) rest =
              diffEvents st.resources rest := by
            apply diffEvents_congr
            intro j hj
            exact mapGet_set_ne _ _ _ _ (hrestne j hj)
          rw [filter_keyNotIn_delete]
          congr 1
          simp [emitEvent, diffEvents, diffEv, hg, if_pos hrv, hcong]
        · intro k
          rw [hget k]
          by_cases hk : k = keyOf i
          · subst hk
            have hfr : rest.find? (fun j => keyOf j == keyOf i) = none :=
              find?_key_none rest (keyOf i) (fun j hj => hrestne j hj)
            simp [resUpd, emitEvent_resources, hfr, List.find?_cons, hg,
              mapGet_set_self, hrv]
          · have hb : (keyOf i == k) = false := by
              simp [Ne.symm hk]
            have hgk := mapGet_set_ne st.resources (keyOf i) k i hk
            simp only [resUpd, emitEvent_resources, List.find?_cons, hb, hgk]
      · have hmr1 : ∀ p ∈ mapDelete missing (keyOf i),
            (mapGet st.resources p.1).isSome = true := by
          intro p hp
          rw [mapDelete_eq_filter] at hp
          exact hmr p (List.mem_of_mem_filter hp)
        obtain ⟨res', hP, hnd', hget⟩ :=
          ih st (mapDelete missing (keyOf i)) hnd hrestnd hmr1
        refine ⟨res', ?_, hnd', ?_⟩
        · simp only [List.map_cons, processListItems, toKeyed_toRaw, hg, if_neg hrv]
          rw [hP]
          rw [filter_keyNotIn_delete]
          congr 1
          simp [diffEvents, diffEv, hg, if_neg hrv]
        · intro k
          rw [hget k]
          by_cases hk : k = keyOf i
          · subst hk
            have hfr : rest.find? (fun j => keyOf j == keyOf i) = none :=
              find?_key_none rest (keyOf i) (fun j hj => hrestne j hj)
            simp [resUpd, hfr, List.find?_cons, hg, hrv]
          · have hb : (keyOf i == k) = false := by
              simp [Ne.symm hk]
            simp only [resUpd, List.find?_cons, hb]

lemma processDeletions_spec (dels : List (String × Item)) :
    ∀ st : ReflectorState,
    ∃ res'', processDeletions st dels =
        { st with resources := res'', log := st.log ++ deletedEvents dels } ∧
      (∀ k, mapGet res'' k =
        if keyMem (keysOf dels) k then none else mapGet st.resources k) ∧
      ((keysOf st.resources).Nodup → (keysOf res'').Nodup) := by
  induction dels with
  | nil =>
    intro st
    refine ⟨st.resources, ?_, fun k => ?_, fun h => h⟩
    · simp [processDeletions, deletedEvents]
    · simp [keysOf, keyMem]
  | cons p rest ih =>
    intro st
    obtain ⟨res'', hEq, hGet, hNd⟩ :=
      ih (emitEvent { st with resources := mapDelete st.resources p.1 }
        (.deleted p.2) none)
    refine ⟨res'', ?_, fun k => ?_, fun h => ?_⟩
    · rw [processDeletions, hEq]
      congr 1
      simp [emitEvent, deletedEvents]
    · rw [hGet k]
      by_cases hk : keyMem (keysOf rest) k = true
      · simp [keysOf_cons, keyMem_cons_eq, hk]
      · have hkf : keyMem (keysOf rest) k = false := by
          revert hk
          cases keyMem (keysOf rest) k <;> simp
        by_cases hk0 : k = p.1
        · subst hk0
          simp [hkf, keysOf_cons, keyMem_cons_eq, emitEvent_resources,
            mapGet_del_self]
        · simp [hkf, keysOf_cons, keyMem_cons_eq, emitEvent_resources,
            Ne.symm hk0, mapGet_del_ne _ _ _ hk0]
    · exact hNd (nodupKeys_mapDelete _ _ h)

lemma relist_spec (st : ReflectorState) (ver : String) (kitems : List Item)
    (hver : ver ≠ "")
    (hnd : (keysOf st.resources).Nodup)
    (hks : (kitems.map keyOf).Nodup) :
    ∃ res',
      relist st ⟨some ver, kitems.map toRaw⟩ = RelistResult.ok
        { st with
          resources := res',
          latestVersion := some ver,
          log := st.log ++ diffEvents st.resources kitems
            ++ deletedEvents (st.resources.filter (keyNotIn (kitems.map keyOf)))
            ++ [REvent.synced ver] } ∧
      (keysOf res').Nodup ∧
      (∀ k, mapGet res' k =
        if keyMem (keysOf (st.resources.filter (keyNotIn (kitems.map keyOf)))) k
        then none else resUpd st.resources kitems k) := by
  have hmr : ∀ p ∈ st.resources, (mapGet st.resources p.1).isSome = true :=
    fun p hp => mem_mapGet_isSome st.resources p hp
  obtain ⟨res1, hP, hnd1, hget1⟩ :=
    processListItems_spec ver kitems st st.resources hnd hks hmr
  obtain ⟨res2, hD, hget2, hnd2⟩ :=
    processDeletions_spec (st.resources.filter (keyNotIn (kitems.map keyOf)))
      { st with resources := res1, log := st.log ++ diffEvents st.resources kitems }
  refine ⟨res2, ?_, hnd2 hnd1, fun k => ?_⟩
  · unfold relist
    simp only [Option.getD_some, if_neg hver, hP]
    rw [hD]
    simp [emitEvent]
  · rw [hget2 k, hget1 k]

end Reflector

namespace Reflector

lemma mem_diffEvents (res : List (String × Item)) (items : List Item)
    (e : REvent) (h : e ∈ diffEvents res items) :
    (∃ j, j ∈ items ∧ e = REvent.added j ∧ mapGet res (keyOf j) = none) ∨
    (∃ j old, j ∈ items ∧ e = REvent.modified j old ∧
      mapGet res (keyOf j) = some old ∧
      old.resourceVersion ≠ j.resourceVersion) := by
  induction items with
  | nil => cases h
  | cons j rest ih =>
    rw [diffEvents, List.mem_append] at h
    rcases h with hh | ht
    · cases hg : mapGet res (keyOf j) with
      | none =>
        simp only [diffEv, hg, List.mem_singleton] at hh
        exact Or.inl ⟨j, List.mem_cons_self _ _, hh, hg⟩
      | some old =>
        simp only [diffEv, hg] at hh
        by_cases hrv : old.resourceVersion ≠ j.resourceVersion
        · rw [if_pos hrv, List.mem_singleton] at hh
          exact Or.inr ⟨j, old, List.mem_cons_self _ _, hh, hg, hrv⟩
        · rw [if_neg hrv] at hh
          cases hh
    · rcases ih ht with ⟨j', hj, he, hg⟩ | ⟨j', old, hj, he, hg, hrv⟩
      · exact Or.inl ⟨j', List.mem_cons_of_mem _ hj, he, hg⟩
      · exact Or.inr ⟨j', old, List.mem_cons_of_mem _ hj, he, hg, hrv⟩

lemma count_added_diffEvents_eq_zero (res : List (String × Item))
    (items : List Item) (i : Item)
    (h : ¬(i ∈ items ∧ mapGet res (keyOf i) = none)) :
    (diffEvents res items).count (REvent.added i) = 0 := by
  rw [List.count_eq_zero]
  intro hc
  rcases mem_diffEvents res items _ hc with ⟨j, hj, he, hg⟩ | ⟨j, old, _, he, _, _⟩
  · have : i = j := by injection he
    subst this
    exact h ⟨hj, hg⟩
  · cases he

lemma count_modified_diffEvents_eq_zero (res : List (String × Item))
    (items : List Item) (i old : Item)
    (h : ¬(i ∈ items ∧ mapGet res (keyOf i) = some old ∧
      old.resourceVersion ≠ i.resourceVersion)) :
    (diffEvents res items).count (REvent.modified i old) = 0 := by
  rw [List.count_eq_zero]
  intro hc
  rcases mem_diffEvents res items _ hc with ⟨j, _, he, _⟩ | ⟨j, old', hj, he, hg, hrv⟩
  · cases he
  · have h1 : i = j := by injection he
    have h2 : old = old' := by injection he
    subst h1
    subst h2
    exact h ⟨hj, hg, hrv⟩

lemma count_deleted_diffEvents (res : List (String × Item)) (items : List Item)
    (v : Item) : (diffEvents res items).count (REvent.deleted v) = 0 := by
  rw [List.count_eq_zero]
  intro hc
  rcases mem_diffEvents res items _ hc with ⟨j, _, he, _⟩ | ⟨j, old, _, he, _, _⟩
  · cases he
  · cases he

lemma count_added_diffEv_ne (res : List (String × Item)) (j i : Item)
    (h : j ≠ i) : (diffEv res j).count (REvent.added i) = 0 := by
  rw [List.count_eq_zero]
  intro hc
  cases hg : mapGet res (keyOf j) with
  | none =>
    simp only [diffEv, hg, List.mem_singleton] at hc
    have h1 : i = j := by injection hc
    exact h h1.symm
  | some old =>
    simp only [diffEv, hg] at hc
    by_cases hrv : old.resourceVersion ≠ j.resourceVersion
    · rw [if_pos hrv, List.mem_singleton] at hc
      cases hc
    · rw [if_neg hrv] at hc
      cases hc

lemma count_modified_diffEv_ne (res : List (String × Item)) (j i old : Item)
    (h : j ≠ i) : (diffEv res j).count (REvent.modified i old) = 0 := by
  rw [List.count_eq_zero]
  intro hc
  cases hg : mapGet res (keyOf j) with
  | none =>
    simp only [diffEv, hg, List.mem_singleton] at hc
    cases hc
  | some old' =>
    simp only [diffEv, hg] at hc
    by_cases hrv : old'.resourceVersion ≠ j.resourceVersion
    · rw [if_pos hrv, List.mem_singleton] at hc
      have h1 : i = j := by injection hc
      exact h h1.symm
    · rw [if_neg hrv] at hc
      cases hc

lemma count_added_diffEvents_one (res : List (String × Item)) (items : List Item)
    (i : Item) (hmem : i ∈ items) (hnd : (items.map keyOf).Nodup)
    (hg : mapGet res (keyOf i) = none) :
    (diffEvents res items).count (REvent.added i) = 1 := by
  induction items with
  | nil => cases hmem
  | cons j rest ih =>
    rw [List.map_cons, List.nodup_cons] at hnd
    rw [diffEvents, List.count_append]
    rcases List.mem_cons.mp hmem with he | hr
    · subst he
      have hnr : ¬(i ∈ rest ∧ mapGet res (keyOf i) = none) := by
        rintro ⟨hjr, _⟩
        exact hnd.1 (List.mem_map_of_mem keyOf hjr)
      rw [count_added_diffEvents_eq_zero res rest i hnr]
      simp only [diffEv, hg]
      simp
    · have hji : j ≠ i := by
        intro he
        exact hnd.1 (he ▸ List.mem_map_of_mem keyOf hr)
      rw [count_added_diffEv_ne res j i hji, ih hr hnd.2]

lemma count_modified_diffEvents_one (res : List (String × Item))
    (items : List Item) (i old : Item) (hmem : i ∈ items)
    (hnd : (items.map keyOf).Nodup)
    (hg : mapGet res (keyOf i) = some old)
    (hrv : old.resourceVersion ≠ i.resourceVersion) :
    (diffEvents res items).count (REvent.modified i old) = 1 := by
  induction items with
  | nil => cases hmem
  | cons j rest ih =>
    rw [List.map_cons, List.nodup_cons] at hnd
    rw [diffEvents, List.count_append]
    rcases List.mem_cons.mp hmem with he | hr
    · subst he
      have hnr : ¬(i ∈ rest ∧ mapGet res (keyOf i) = some old ∧
          old.resourceVersion ≠ i.resourceVersion) := by
        rintro ⟨hjr, _, _⟩
        exact hnd.1 (List.mem_map_of_mem keyOf hjr)
      rw [count_modified_diffEvents_eq_zero res rest i old hnr]
      simp only [diffEv, hg, if_pos hrv]
      simp
    · have hji : j ≠ i := by
        intro he
        exact hnd.1 (he ▸ List.mem_map_of_mem keyOf hr)
      rw [count_modified_diffEv_ne res j i old hji, ih hr hnd.2]

lemma count_added_deletedEvents (l : List (String × Item)) (i : Item) :
    (deletedEvents l).count (REvent.added i) = 0 := by
  rw [List.count_eq_zero, deletedEvents]
  intro hc
  rw [List.mem_map] at hc
  obtain ⟨q, _, he⟩ := hc
  cases he

lemma count_modified_deletedEvents (l : List (String × Item)) (i old : Item) :
    (deletedEvents l).count (REvent.modified i old) = 0 := by
  rw [List.count_eq_zero, deletedEvents]
  intro hc
  rw [List.mem_map] at hc
  obtain ⟨q, _, he⟩ := hc
  cases he

lemma count_deleted_deletedEvents_zero (l : List (String × Item)) (v : Item)
    (h : ∀ q ∈ l, q.2 ≠ v) :
    (deletedEvents l).count (REvent.deleted v) = 0 := by
  rw [List.count_eq_zero, deletedEvents]
  intro hc
  rw [List.mem_map] at hc
  obtain ⟨q, hq, he⟩ := hc
  exact h q hq (by injection he)

lemma count_deleted_deletedEvents_one (l : List (String × Item))
    (p : String × Item) (hnd : (keysOf l).Nodup)
    (hwk : ∀ q ∈ l, q.1 = keyOf q.2) (hmem : p ∈ l) :
    (deletedEvents l).count (REvent.deleted p.2) = 1 := by
  induction l with
  | nil => cases hmem
  | cons q rest ih =>
    rw [keysOf_cons, List.nodup_cons] at hnd
    have hdc : deletedEvents (q :: rest) =
        REvent.deleted q.2 :: deletedEvents rest := rfl
    rw [hdc, List.count_cons]
    rcases List.mem_cons.mp hmem with he | hr
    · subst he
      have hz : ∀ r ∈ rest, r.2 ≠ p.2 := by
        intro r hr' he2
        apply hnd.1
        have h1 := hwk p (List.mem_cons_self _ _)
        have h2 := hwk r (List.mem_cons_of_mem _ hr')
        rw [keysOf]
        exact List.mem_map.mpr ⟨r, hr', by rw [h2, he2, ← h1]⟩
      rw [count_deleted_deletedEvents_zero rest p.2 hz]
      simp
    · have hne : q.2 ≠ p.2 := by
        intro he2
        apply hnd.1
        have h1 := hwk q (List.mem_cons_self _ _)
        have h2 := hwk p (List.mem_cons_of_mem _ hr)
        rw [keysOf]
        exact List.mem_map.mpr ⟨p, hr, by rw [h2, ← he2, ← h1]⟩
      rw [ih hnd.2 (fun r hr' => hwk r (List.mem_cons_of_mem _ hr')) hr]
      simp [hne]

lemma keyMem_keysOf_filter_out (m : List (String × Item)) (ks : List String)
    (k : String) (hk : keyMem ks k = true) :
    keyMem (keysOf (m.filter (keyNotIn ks))) k = false := by
  by_contra hc
  have hmem : k ∈ keysOf (m.filter (keyNotIn ks)) := by
    apply (keyMem_iff _ _).mp
    revert hc
    cases keyMem (keysOf (m.filter (keyNotIn ks))) k <;> simp
  rw [keysOf, List.mem_map] at hmem
  obtain ⟨q, hq, he⟩ := hmem
  have hpred := List.of_mem_filter hq
  rw [keyNotIn, he, hk] at hpred
  simp at hpred

end Reflector

namespace Reflector

lemma toKeyed_eq_none_iff (r : RawItem) : toKeyed r = none ↔ isKeyed r = false := by
  obtain ⟨meta, pd⟩ := r
  cases meta with
  | none => simp [toKeyed, isKeyed]
  | some m =>
    obtain ⟨n, ns, u, rv⟩ := m
    cases n <;> cases u <;> cases rv <;> simp [toKeyed, isKeyed]

lemma isKeyed_iff_fields (r : RawItem) :
    isKeyed r = false ↔
      (r.metadata = none ∨ ∃ m, r.metadata = some m ∧
        (m.name = none ∨ m.uid = none ∨ m.resourceVersion = none)) := by
  obtain ⟨meta, pd⟩ := r
  cases meta with
  | none => simp [isKeyed]
  | some m =>
    obtain ⟨n, ns, u, rv⟩ := m
    cases n <;> cases u <;> cases rv <;> simp [isKeyed]

/-- Claim C9: every call to `stop` throws.  The first call (cancelled still
false) flags cancellation and appends exactly one `ERROR` event whose
status carries the reason "ReflectorStopped" before throwing; a second
call throws the double-cancel usage error and changes nothing.  The
second component of `stop`'s result is the message of the exception it
raises, so `stop` never returns normally. -/
theorem stop_contract (st : ReflectorState) :
    stoppedStatus.reason = some "ReflectorStopped" ∧
    (st.cancelled = false →
      (stop st).2 = "TODO: a ton of cleanup" ∧
      (stop st).1.cancelled = true ∧
      (stop st).1.log = st.log ++ [REvent.error stoppedStatus] ∧
      (stop st).1.resources = st.resources ∧
      (stop st).1.latestVersion = st.latestVersion) ∧
    (st.cancelled = true →
      stop st = (st, "BUG: double-cancel")) := by
  refine ⟨rfl, fun h => ?_, fun h => ?_⟩
  · refine ⟨?_, ?_, ?_, ?_, ?_⟩ <;> simp [stop, h, emitEvent]
  · simp [stop, h]

/-- Witness for C9: a first `stop` on the initial state throws the cleanup
error after appending the stop event, and a second `stop` on the
resulting state throws the double-cancel error. -/
theorem stop_contract_witness :
    (stop reflectorInit).2 = "TODO: a ton of cleanup" ∧
    (stop reflectorInit).1.cancelled = true ∧
    (stop reflectorInit).1.log = [REvent.error stoppedStatus] ∧
    stop (stop reflectorInit).1 = ((stop reflectorInit).1, "BUG: double-cancel") := by
  obtain ⟨_, h1, _⟩ := stop_contract reflectorInit
  obtain ⟨ha, hb, hc, _, _⟩ := h1 rfl
  refine ⟨ha, hb, hc, ?_⟩
  exact (stop_contract (stop reflectorInit).1).2.2 hb

/-- Claim C10: the method `isSynced` is true exactly when `latestVersion` holds a
non-empty string; it is false on a fresh Reflector, unchanged by
emissions that carry no version, true right after a `SYNCED` emission
(in particular after every successful relist), and false right after
the `DESYNCED` emission, which stores the empty string. -/
theorem isSynced_contract :
    (∀ st : ReflectorState, isSynced st = true ↔
      ∃ v, st.latestVersion = some v ∧ v ≠ "") ∧
    isSynced reflectorInit = false ∧
    (∀ (st : ReflectorState) (e : REvent),
      isSynced (emitEvent st e none) = isSynced st) ∧
    (∀ (st : ReflectorState) (v : String), v ≠ "" →
      isSynced (emitEvent st (REvent.synced v) (some v)) = true) ∧
    (∀ st : ReflectorState,
      isSynced (emitEvent st REvent.desynced (some "")) = false ∧
      (emitEvent st REvent.desynced (some "")).latestVersion = some "") ∧
    (∀ (st : ReflectorState) (resp : ListResp) (st' : ReflectorState),
      relist st resp = RelistResult.ok st' → isSynced st' = true) := by
  refine ⟨?_, rfl, ?_, ?_, ?_, ?_⟩
  · intro st
    cases h : st.latestVersion with
    | none => simp [isSynced, jsTruthy, h]
    | some v => simp [isSynced, jsTruthy, h, bne_iff_ne]
  · intro st e
    rfl
  · intro st v hv
    simp [isSynced, jsTruthy, emitEvent, hv]
  · intro st
    exact ⟨by simp [isSynced, jsTruthy, emitEvent], rfl⟩
  · intro st resp st' h
    obtain ⟨v, _, hne, hlv, _⟩ := relist_ok_latest st resp st' h
    simp [isSynced, jsTruthy, hlv, hne]

/-- Witness for C10: on a concrete run the flag flips as the contract says. -/
theorem isSynced_contract_witness :
    isSynced reflectorInit = false ∧
    isSynced (emitEvent reflectorInit (REvent.synced "5") (some "5")) = true ∧
    isSynced (emitEvent demoCacheState REvent.desynced (some "")) = false ∧
    (∀ st', relist reflectorInit ⟨some "5", [toRaw demoItem]⟩ =
      RelistResult.ok st' → isSynced st' = true) := by
  refine ⟨isSynced_contract.2.1, ?_, (isSynced_contract.2.2.2.2.1 demoCacheState).1, ?_⟩
  · exact isSynced_contract.2.2.2.1 reflectorInit "5" (by decide)
  · intro st' h
    exact isSynced_contract.2.2.2.2.2 reflectorInit ⟨some "5", [toRaw demoItem]⟩ st' h

/-- Claim C4: a watch error with reason "Expired" makes the watch-event
handler break out of the watch loop without appending anything (so no
`ERROR` event reaches observers), after which the loop appends exactly
one `DESYNCED` event whose version reset stores "", making `isSynced`
false and the next relist request version "0". -/
theorem expired_causes_desync (st : ReflectorState) (status : Status)
    (hc : st.cancelled = false)
    (hr : status.reason = some "Expired") :
    processWatchEvent st (.error status) = WatchStep.brk st ∧
    runStep ⟨st, Mode.watching⟩ (RunInput.watchEvt (WEvent.error status)) =
      StepResult.running ⟨emitEvent st REvent.desynced (some ""), Mode.listing⟩ ∧
    (emitEvent st REvent.desynced (some "")).log = st.log ++ [REvent.desynced] ∧
    (emitEvent st REvent.desynced (some "")).latestVersion = some "" ∧
    isSynced (emitEvent st REvent.desynced (some "")) = false ∧
    listFrom (emitEvent st REvent.desynced (some "")) = "0" := by
  have h1 : processWatchEvent st (.error status) = WatchStep.brk st := by
    simp [processWatchEvent, hc, hr]
  refine ⟨h1, ?_, rfl, rfl, ?_, ?_⟩
  · simp [runStep, h1, hc, emitEvent]
  · simp [isSynced, jsTruthy, emitEvent]
  · simp [listFrom, jsOrDefault, emitEvent]

/-- Witness for C4: the concrete Expired status on a concrete synced state. -/
theorem expired_causes_desync_witness :
    processWatchEvent demoCacheState (.error expiredStatus) =
      WatchStep.brk demoCacheState ∧
    listFrom (emitEvent demoCacheState REvent.desynced (some "")) = "0" := by
  obtain ⟨h1, _, _, _, _, h6⟩ :=
    expired_causes_desync demoCacheState expiredStatus (by decide) (by decide)
  exact ⟨h1, h6⟩

/-- Claim C6: an item lacking any of the identity fields (name, uid,
resourceVersion, or metadata entirely) makes the loop throw a fatal
integrity error: in the watch path the handler returns the fatal
outcome with the state exactly as it was (no cache mutation, no event),
and in the relist path the per-item loop throws at that item before
touching the state further.  The last conjunct ties the `isKeyed` check
to the missing-field description. -/
theorem unkeyed_item_fatal (st : ReflectorState) (kind : WKind) (raw : RawItem)
    (lv : String) (missing : List (String × Item)) (rest : List RawItem)
    (hc : st.cancelled = false)
    (hk : isKeyed raw = false) :
    processWatchEvent st (.item kind raw) =
      WatchStep.fatal st ("BUG: got unkeyed item from watch " ++ kindName kind) ∧
    processListItems lv st missing (raw :: rest) =
      ListPhase.thrown st ("BUG: got unkeyed item from list " ++ lv) ∧
    (isKeyed raw = false ↔
      (raw.metadata = none ∨ ∃ m, raw.metadata = some m ∧
        (m.name = none ∨ m.uid = none ∨ m.resourceVersion = none))) := by
  have hkn : toKeyed raw = none := (toKeyed_eq_none_iff raw).mpr hk
  refine ⟨?_, ?_, isKeyed_iff_fields raw⟩
  · simp [processWatchEvent, hc, hkn]
  · simp [processListItems, hkn]

/-- Witness for C6: a raw item missing `uid` is fatal on both paths with the
state untouched. -/
theorem unkeyed_item_fatal_witness :
    processWatchEvent demoCacheState (.item WKind.modified demoUnkeyedRaw) =
      WatchStep.fatal demoCacheState "BUG: got unkeyed item from watch MODIFIED" ∧
    processListItems "9" demoCacheState demoCacheState.resources
        [demoUnkeyedRaw] =
      ListPhase.thrown demoCacheState "BUG: got unkeyed item from list 9" := by
  obtain ⟨h1, h2, _⟩ :=
    unkeyed_item_fatal demoCacheState WKind.modified demoUnkeyedRaw "9"
      demoCacheState.resources [] (by decide) (by decide)
  exact ⟨h1, h2⟩

/-- Claim C7, evaluated on the code: the key scheme of the code.  A namespace-less item
admitted through a relist is stored under the key "undefined/a" (the JS
template literal stringifies the absent namespace), so `getCached`
with the empty-string namespace, which the claim prescribes, does not
find it; only the accidental namespace "undefined" does. -/
theorem key_scheme_eval :
    relist reflectorInit ⟨some "5", [toRaw demoClusterItem]⟩ =
      RelistResult.ok
        { resources := [("undefined/a", demoClusterItem)],
          latestVersion := some "5",
          log := [REvent.added demoClusterItem, REvent.synced "5"],
          cancelled := false } ∧
    getCached
      { resources := [("undefined/a", demoClusterItem)],
        latestVersion := some "5",
        log := [REvent.added demoClusterItem, REvent.synced "5"],
        cancelled := false } "" "a" = none ∧
    getCached
      { resources := [("undefined/a", demoClusterItem)],
        latestVersion := some "5",
        log := [REvent.added demoClusterItem, REvent.synced "5"],
        cancelled := false } "undefined" "a" = some demoClusterItem ∧
    demoClusterItem.ns = none := by
  refine ⟨?_, ?_, ?_, rfl⟩ <;> decide

end Reflector

namespace Reflector

lemma processListItems_allCurrent (lv : String) (kitems : List Item) :
    ∀ (st : ReflectorState) (missing : List (String × Item)),
    (∀ i ∈ kitems, mapGet st.resources (keyOf i) = some i) →
    processListItems lv st missing (kitems.map toRaw) =
      ListPhase.ok st (missing.filter (keyNotIn (kitems.map keyOf))) := by
  induction kitems with
  | nil =>
    intro st missing _
    simp [processListItems, filter_keyNotIn_nil]
  | cons i rest ih =>
    intro st missing hall
    have hg := hall i (List.mem_cons_self _ _)
    simp only [List.map_cons, processListItems, toKeyed_toRaw, hg]
    rw [if_neg (show ¬(i.resourceVersion ≠ i.resourceVersion) by simp)]
    rw [ih st (mapDelete missing (keyOf i))
      (fun j hj => hall j (List.mem_cons_of_mem _ hj))]
    rw [filter_keyNotIn_delete]

/-- Claim C5: a relist whose response holds exactly the currently cached items
with unchanged versions emits only `SYNCED(listVersion)` - no `ADDED`,
`MODIFIED` or `DELETED` - and leaves the cache untouched. -/
theorem relist_idempotent_synced (st : ReflectorState) (ver : String)
    (kitems : List Item)
    (hver : ver ≠ "")
    (hall : ∀ i ∈ kitems, mapGet st.resources (keyOf i) = some i)
    (hcov : ∀ p ∈ st.resources, keyMem (kitems.map keyOf) p.1 = true) :
    relist st ⟨some ver, kitems.map toRaw⟩ =
      RelistResult.ok
        { st with
          latestVersion := some ver,
          log := st.log ++ [REvent.synced ver] } := by
  unfold relist
  simp only [Option.getD_some, if_neg hver,
    processListItems_allCurrent ver kitems st st.resources hall]
  have hfe : st.resources.filter (keyNotIn (kitems.map keyOf)) = [] := by
    rw [List.filter_eq_nil_iff]
    intro p hp
    simp [keyNotIn, hcov p hp]
  rw [hfe]
  simp [processDeletions, emitEvent]

/-- Witness for C5: relisting the two cached items at their cached versions
emits exactly one `SYNCED` and nothing else. -/
theorem relist_idempotent_synced_witness :
    relist demoCacheState ⟨some "2", [demoItem, demoItemB].map toRaw⟩ =
      RelistResult.ok
        { demoCacheState with
          latestVersion := some "2",
          log := demoCacheState.log ++ [REvent.synced "2"] } := by
  exact relist_idempotent_synced demoCacheState "2" [demoItem, demoItemB]
    (by decide) (by decide) (by decide)

/-- Claim C3: an `observeAll` invocation on a cache of N items yields a
startup burst that (a) starts replay at the snapshot log cursor,
consuming no log entries, (b) has exactly N `ADDED` events - one per
cached item, in cache order - followed by exactly one `SYNCED` carrying
the snapshot version when one was known and nothing otherwise, (c)
depends only on the snapshot (so events the loop appends concurrently
do not disturb it), and (d) leaves every concurrently appended event to
be yielded after the burst, in log order. -/
theorem observe_startup_burst (st : ReflectorState) (ext : List REvent)
    (hne : noErr ext) :
    (observeStartup st).2 = st.log.length ∧
    (observeStartup st).1.length =
      st.resources.length + (if isSynced st then 1 else 0) ∧
    (observeStartup st).1.take st.resources.length =
      (listCached st).map REvent.added ∧
    (isSynced st = true →
      (observeStartup st).1.drop st.resources.length =
        [REvent.synced (st.latestVersion.getD "")]) ∧
    (isSynced st = false →
      (observeStartup st).1.drop st.resources.length = []) ∧
    (∀ st' : ReflectorState, st'.resources = st.resources →
      st'.latestVersion = st.latestVersion →
      (observeStartup st').1 = (observeStartup st).1) ∧
    drainFrom (st.log ++ ext) (observeStartup st).2 =
      (ext, st.log.length + ext.length) := by
  have htail : (observeStartup st).1 =
      (st.resources.map fun p => REvent.added p.2) ++
        (if isSynced st then [REvent.synced (st.latestVersion.getD "")] else []) := by
    cases h : st.latestVersion with
    | none => simp [observeStartup, isSynced, jsTruthy, h]
    | some v =>
      by_cases hv : v = ""
      · simp [observeStartup, isSynced, jsTruthy, h, hv]
      · simp [observeStartup, isSynced, jsTruthy, h, hv]
  have hmaplen : (st.resources.map fun p => REvent.added p.2).length =
      st.resources.length := List.length_map _ _
  refine ⟨rfl, ?_, ?_, ?_, ?_, ?_, ?_⟩
  · rw [htail, List.length_append, hmaplen]
    by_cases hs : isSynced st = true
    · simp [hs]
    · simp [hs]
  · rw [htail, ← hmaplen, List.take_left]
    simp [listCached, List.map_map, Function.comp]
  · intro hs
    rw [htail, ← hmaplen, List.drop_left, if_pos hs]
  · intro hs
    rw [htail, ← hmaplen, List.drop_left, if_neg (by simp [hs])]
  · intro st' hres hlv
    simp [observeStartup, hres, hlv]
  · exact drainFrom_ext st.log ext hne

/-- Witness for C3: on the concrete two-item synced cache the burst is two
`ADDED` events plus one `SYNCED`, the cursor is the snapshot log length,
and a concurrent extension is replayed right after it. -/
theorem observe_startup_burst_witness :
    (observeStartup demoCacheState).2 = 0 ∧
    (observeStartup demoCacheState).1.length = 3 ∧
    drainFrom (demoCacheState.log ++ demoExt) (observeStartup demoCacheState).2 =
      (demoExt, 2) := by
  obtain ⟨h1, h2, _, _, _, _, h7⟩ :=
    observe_startup_burst demoCacheState demoExt (by decide)
  refine ⟨h1, ?_, ?_⟩
  · rw [h2]
    decide
  · rw [h7]
    decide

end Reflector

namespace Reflector

/-- Claim C1: the synchronization loop is the single writer of the event log:
every `_emit` appends exactly one event, and every `run` step only
extends the log, so the log positions give one total order.  An
observer's replay from a cursor yields, when no `ERROR` intervenes,
exactly the contiguous suffix of the log from its snapshot token - no
gaps, duplicates or reordering - and in general a contiguous initial
segment of that suffix; draining across a concurrent extension
concatenates to exactly the suffix; and two observers whose cursors
both reached the end of the shared backlog receive identical event
sequences for everything appended afterwards. -/
theorem reflector_event_order :
    (∀ (st : ReflectorState) (e : REvent) (r : Option String),
      (emitEvent st e r).log = st.log ++ [e]) ∧
    (∀ (rs : RunState) (inp : RunInput),
      ∃ tl, (stateOf (runStep rs inp)).log = rs.st.log ++ tl) ∧
    (∀ (log : List REvent) (c : Nat), c ≤ log.length → noErr (log.drop c) →
      drainFrom log c = (log.drop c, log.length)) ∧
    (∀ (log : List REvent) (c : Nat),
      ∃ rest, log.drop c = (drainFrom log c).1 ++ rest) ∧
    (∀ (log ext : List REvent) (c : Nat), c ≤ log.length →
      noErr ((log ++ ext).drop c) →
      (drainFrom log c).1 ++ (drainFrom (log ++ ext) (drainFrom log c).2).1 =
        (log ++ ext).drop c) ∧
    (∀ (log ext : List REvent) (a b : Nat), a ≤ log.length → b ≤ log.length →
      noErr (log.drop a) → noErr (log.drop b) → noErr ext →
      (drainFrom (log ++ ext) (drainFrom log a).2).1 =
        (drainFrom (log ++ ext) (drainFrom log b).2).1) := by
  have hdrop : ∀ (log ext : List REvent) (c : Nat), c ≤ log.length →
      (log ++ ext).drop c = log.drop c ++ ext := by
    intro log ext c hc
    rw [List.drop_append_eq_append_drop, Nat.sub_eq_zero_of_le hc, List.drop_zero]
  refine ⟨emitEvent_log, runStep_log, drainFrom_noErr, ?_, ?_, ?_⟩
  · intro log c
    exact takeUntilErr_append_rest (log.drop c)
  · intro log ext c hc hne
    rw [hdrop log ext c hc] at hne
    have hne1 : noErr (log.drop c) :=
      fun e he => hne e (List.mem_append_left _ he)
    have hne2 : noErr ext :=
      fun e he => hne e (List.mem_append_right _ he)
    rw [drainFrom_noErr log c hc hne1, drainFrom_ext log ext hne2,
      hdrop log ext c hc]
  · intro log ext a b ha hb hna hnb hne
    rw [drainFrom_noErr log a ha hna, drainFrom_noErr log b hb hnb]

/-- Witness for C1: on a concrete log, draining from cursor 1 yields the
suffix; after the log grows, observers that drained their backlog from
cursors 0 and 1 both receive exactly the extension. -/
theorem reflector_event_order_witness :
    drainFrom demoLog 1 = (List.drop 1 demoLog, demoLog.length) ∧
    (drainFrom demoLog 1).1 ++
        (drainFrom (demoLog ++ demoExt) (drainFrom demoLog 1).2).1 =
      (demoLog ++ demoExt).drop 1 ∧
    (drainFrom (demoLog ++ demoExt) (drainFrom demoLog 0).2).1 =
      (drainFrom (demoLog ++ demoExt) (drainFrom demoLog 1).2).1 ∧
    (emitEvent demoCacheState (REvent.bookmark "3") (some "3")).log =
      demoCacheState.log ++ [REvent.bookmark "3"] := by
  obtain ⟨h1, _, h3, _, h5, h6⟩ := reflector_event_order
  refine ⟨h3 demoLog 1 (by decide) (by decide), ?_, ?_, h1 demoCacheState (REvent.bookmark "3") (some "3")⟩
  · exact h5 demoLog demoExt 1 (by decide) (by decide)
  · exact h6 demoLog demoExt 0 1 (by decide) (by decide) (by decide) (by decide)
      (by decide)

/-- Claim C8: the method `_emit` moves `latestVersion` only when a version is supplied
(version-less emissions preserve it, versioned ones overwrite it); the
only step of the loop that stores a version not taken from the input is
the `DESYNCED` reset to the empty string after an Expired error; and
along any sequence of emissions in which each supplied version
dominates the then-current `latestVersion` under a reflexive transitive
order, `latestVersion` is non-decreasing from start to finish. -/
theorem latestVersion_evolution :
    (∀ (st : ReflectorState) (e : REvent),
      (emitEvent st e none).latestVersion = st.latestVersion) ∧
    (∀ (st : ReflectorState) (e : REvent) (v : String),
      (emitEvent st e (some v)).latestVersion = some v) ∧
    (∀ st : ReflectorState,
      (emitEvent st REvent.desynced (some "")).latestVersion = some "" ∧
      isSynced (emitEvent st REvent.desynced (some "")) = false) ∧
    (∀ (rs : RunState) (inp : RunInput),
      (stateOf (runStep rs inp)).latestVersion = rs.st.latestVersion ∨
      (∃ v, v ∈ stepVersions inp ∧
        (stateOf (runStep rs inp)).latestVersion = some v) ∨
      (isExpiredInput inp ∧
        (stateOf (runStep rs inp)).latestVersion = some "")) ∧
    (∀ le : String → String → Prop,
      (∀ s, le s s) →
      (∀ a b c, le a b → le b c → le a c) →
      ∀ (ems : List (REvent × Option String)) (st : ReflectorState),
      (∀ (n : Nat) (e : REvent) (v : String), ems[n]? = some (e, some v) →
        ∀ cur, (emitMany st (ems.take n)).latestVersion = some cur → le cur v) →
      ∀ cur₀ cur₁, st.latestVersion = some cur₀ →
        (emitMany st ems).latestVersion = some cur₁ → le cur₀ cur₁) := by
  refine ⟨fun st e => rfl, fun st e v => rfl,
    fun st => ⟨rfl, by simp [isSynced, jsTruthy, emitEvent]⟩,
    runStep_latest, ?_⟩
  intro le hrefl htrans ems
  induction ems with
  | nil =>
    intro st _ cur₀ cur₁ h0 h1
    rw [show emitMany st [] = st from rfl, h0] at h1
    cases h1
    exact hrefl cur₀
  | cons pr rest ih =>
    obtain ⟨e, r⟩ := pr
    intro st hsup cur₀ cur₁ h0 h1
    have hstep : emitMany st ((e, r) :: rest) =
        emitMany (emitEvent st e r) rest := rfl
    rw [hstep] at h1
    have hsup' : ∀ (n : Nat) (e' : REvent) (v : String),
        rest[n]? = some (e', some v) →
        ∀ cur, (emitMany (emitEvent st e r) (rest.take n)).latestVersion =
          some cur → le cur v := by
      intro n e' v hn cur hcur
      have htake : emitMany st (((e, r) :: rest).take (n + 1)) =
          emitMany (emitEvent st e r) (rest.take n) := by
        rw [List.take_succ_cons]
        rfl
      exact hsup (n + 1) e' v (by simpa using hn) cur (by rw [htake]; exact hcur)
    cases r with
    | none =>
      have h0' : (emitEvent st e none).latestVersion = some cur₀ := by
        rw [emitEvent_none_latest, h0]
      exact ih (emitEvent st e none) hsup' cur₀ cur₁ h0' h1
    | some v =>
      have hle0 : le cur₀ v :=
        hsup 0 e v (by simp) cur₀ (by simpa [emitMany] using h0)
      have hlev : le v cur₁ :=
        ih (emitEvent st e (some v)) hsup' v cur₁
          (emitEvent_some_latest st e v) h1
      exact htrans _ _ _ hle0 hlev

end Reflector

namespace Reflector

/-- Witness for C8: a version-less emission preserves the version, a
bookmark stores its version, and a concrete dominated emission sequence
is non-decreasing (under the string-length order used as the remote
version order). -/
theorem latestVersion_evolution_witness :
    (emitEvent demoCacheState (REvent.added demoItemC) none).latestVersion =
      some "1" ∧
    (emitEvent demoCacheState (REvent.bookmark "3") (some "3")).latestVersion =
      some "3" ∧
    ("1" : String).length ≤ ("22" : String).length := by
  obtain ⟨h1, h2, _, _, h5⟩ := latestVersion_evolution
  refine ⟨?_, h2 demoCacheState (REvent.bookmark "3") "3", ?_⟩
  · rw [h1 demoCacheState (REvent.added demoItemC)]
    rfl
  · apply h5 (fun a b => a.length ≤ b.length) (fun s => Nat.le_refl _)
      (fun a b c hab hbc => Nat.le_trans hab hbc)
      [(REvent.synced "22", some "22")] demoCacheState ?hsup "1" "22" rfl ?hfin
    case hsup =>
      intro n e v hn cur hcur
      cases n with
      | zero =>
        rw [List.getElem?_cons_zero] at hn
        injection hn with hpair
        injection hpair with he hv
        injection hv with hv2
        subst hv2
        have hc1 : cur = "1" := by
          have h' : (some "1" : Option String) = some cur := hcur
          injection h' with h''
          exact h''.symm
        subst hc1
        decide
      | succ m => simp at hn
    case hfin => decide

/-- Claim C2: for a relist response processed without throwing (all items
keyed, response keys distinct, cache well-formed): every returned item
with a fresh key is inserted and gets exactly one `ADDED`; every
returned item whose cached version differs is replaced and gets exactly
one `MODIFIED(new, old)` carrying the previously cached value; every
returned item with an unchanged version leaves the cache entry and gets
no `ADDED`/`MODIFIED`; every cache key absent from the response is
removed and gets exactly one `DELETED(old)`; keys in neither cache nor
response stay absent; and the appended segment consists of exactly the
diff events, the deletions and one `SYNCED` - nothing else. -/
theorem relist_diff_correct (st : ReflectorState) (ver : String)
    (kitems : List Item)
    (hver : ver ≠ "")
    (hwk : wellKeyed st.resources)
    (hnd : (keysOf st.resources).Nodup)
    (hks : (kitems.map keyOf).Nodup) :
    ∃ st' seg,
      relist st ⟨some ver, kitems.map toRaw⟩ = RelistResult.ok st' ∧
      st'.log = st.log ++ seg ∧
      seg = diffEvents st.resources kitems
        ++ deletedEvents (st.resources.filter (keyNotIn (kitems.map keyOf)))
        ++ [REvent.synced ver] ∧
      (∀ i ∈ kitems, mapGet st.resources (keyOf i) = none →
        mapGet st'.resources (keyOf i) = some i ∧
        seg.count (REvent.added i) = 1) ∧
      (∀ i ∈ kitems, ∀ old, mapGet st.resources (keyOf i) = some old →
        old.resourceVersion ≠ i.resourceVersion →
        mapGet st'.resources (keyOf i) = some i ∧
        seg.count (REvent.modified i old) = 1) ∧
      (∀ i ∈ kitems, ∀ old, mapGet st.resources (keyOf i) = some old →
        old.resourceVersion = i.resourceVersion →
        mapGet st'.resources (keyOf i) = some old ∧
        seg.count (REvent.added i) = 0 ∧
        seg.count (REvent.modified i old) = 0) ∧
      (∀ p ∈ st.resources, p.1 ∉ kitems.map keyOf →
        mapGet st'.resources p.1 = none ∧
        seg.count (REvent.deleted p.2) = 1) ∧
      (∀ k, k ∉ kitems.map keyOf → mapGet st.resources k = none →
        mapGet st'.resources k = none) := by
  obtain ⟨res', hEq, hnd', hget⟩ := relist_spec st ver kitems hver hnd hks
  have hwkf : ∀ q ∈ st.resources.filter (keyNotIn (kitems.map keyOf)),
      q.1 = keyOf q.2 := fun q hq => hwk q (List.mem_of_mem_filter hq)
  have hndf : (keysOf (st.resources.filter (keyNotIn (kitems.map keyOf)))).Nodup :=
    nodupKeys_filter _ _ hnd
  refine ⟨_, diffEvents st.resources kitems
      ++ deletedEvents (st.resources.filter (keyNotIn (kitems.map keyOf)))
      ++ [REvent.synced ver], hEq, by simp, rfl, ?_, ?_, ?_, ?_, ?_⟩
  · intro i hi hg
    have hkm : keyMem (kitems.map keyOf) (keyOf i) = true :=
      (keyMem_iff _ _).mpr (List.mem_map_of_mem keyOf hi)
    constructor
    · show mapGet res' (keyOf i) = some i
      rw [hget (keyOf i), keyMem_keysOf_filter_out st.resources _ _ hkm]
      simp only [Bool.false_eq_true, if_false, resUpd,
        find?_key_self kitems i hi hks, hg]
    · simp only [List.count_append]
      rw [count_added_diffEvents_one st.resources kitems i hi hks hg,
        count_added_deletedEvents]
      simp
  · intro i hi old hg hrv
    have hkm : keyMem (kitems.map keyOf) (keyOf i) = true :=
      (keyMem_iff _ _).mpr (List.mem_map_of_mem keyOf hi)
    constructor
    · show mapGet res' (keyOf i) = some i
      rw [hget (keyOf i), keyMem_keysOf_filter_out st.resources _ _ hkm]
      simp only [Bool.false_eq_true, if_false, resUpd,
        find?_key_self kitems i hi hks, hg, if_pos hrv]
    · simp only [List.count_append]
      rw [count_modified_diffEvents_one st.resources kitems i old hi hks hg hrv,
        count_modified_deletedEvents]
      simp
  · intro i hi old hg hrv
    have hkm : keyMem (kitems.map keyOf) (keyOf i) = true :=
      (keyMem_iff _ _).mpr (List.mem_map_of_mem keyOf hi)
    refine ⟨?_, ?_, ?_⟩
    · show mapGet res' (keyOf i) = some old
      rw [hget (keyOf i), keyMem_keysOf_filter_out st.resources _ _ hkm]
      simp only [Bool.false_eq_true, if_false, resUpd,
        find?_key_self kitems i hi hks, hg]
      rw [if_neg (show ¬old.resourceVersion ≠ i.resourceVersion from
        fun hcon => hcon hrv)]
    · simp only [List.count_append]
      rw [count_added_diffEvents_eq_zero st.resources kitems i
        (by rintro ⟨_, hc⟩; rw [hg] at hc; cases hc),
        count_added_deletedEvents]
      simp
    · simp only [List.count_append]
      rw [count_modified_diffEvents_eq_zero st.resources kitems i old
        (by rintro ⟨_, _, hc⟩; exact hc hrv),
        count_modified_deletedEvents]
      simp
  · intro p hp hnotin
    have hkmf : keyMem (kitems.map keyOf) p.1 = false := by
      cases h : keyMem (kitems.map keyOf) p.1 with
      | false => rfl
      | true => exact absurd ((keyMem_iff _ _).mp h) hnotin
    have hpm : p ∈ st.resources.filter (keyNotIn (kitems.map keyOf)) := by
      apply List.mem_filter.mpr
      refine ⟨hp, ?_⟩
      simp [keyNotIn, hkmf]
    constructor
    · show mapGet res' p.1 = none
      rw [hget p.1, if_pos]
      exact (keyMem_iff _ _).mpr (List.mem_map_of_mem Prod.fst hpm)
    · simp only [List.count_append]
      rw [count_deleted_diffEvents,
        count_deleted_deletedEvents_one _ p hndf hwkf hpm]
      simp
  · intro k hk1 hk2
    show mapGet res' k = none
    rw [hget k]
    by_cases hkm : keyMem (keysOf (st.resources.filter
        (keyNotIn (kitems.map keyOf)))) k = true
    · rw [if_pos hkm]
    · rw [if_neg hkm]
      have hfind : kitems.find? (fun j => keyOf j == k) = none :=
        find?_key_none kitems k
          (fun i hi he => hk1 (he ▸ List.mem_map_of_mem keyOf hi))
      simp only [resUpd, hfind, hk2]

end Reflector

namespace Reflector

/-- Witness for C2: relisting a cache of two items against a response
with one changed item and one fresh item inserts the fresh one, updates
the changed one, removes the missing one, and emits exactly one event
of each corresponding kind. -/
theorem relist_diff_correct_witness :
    ∃ st', relist demoCacheState ⟨some "2", [demoItemV2, demoItemC].map toRaw⟩ =
        RelistResult.ok st' ∧
      mapGet st'.resources (keyOf demoItemC) = some demoItemC ∧
      mapGet st'.resources (keyOf demoItemV2) = some demoItemV2 ∧
      mapGet st'.resources "x/b" = none ∧
      st'.log.count (REvent.added demoItemC) = 1 ∧
      st'.log.count (REvent.modified demoItemV2 demoItem) = 1 ∧
      st'.log.count (REvent.deleted demoItemB) = 1 := by
  obtain ⟨st', seg, h1, h2, h3, hadd, hmod, _, hdel, _⟩ :=
    relist_diff_correct demoCacheState "2" [demoItemV2, demoItemC]
      (by decide) (by decide) (by decide) (by decide)
  have hlog : st'.log = seg := by
    rw [h2]
    rfl
  refine ⟨st', h1, ?_, ?_, ?_, ?_, ?_, ?_⟩
  · exact (hadd demoItemC (by decide) (by decide)).1
  · exact (hmod demoItemV2 (by decide) demoItem (by decide) (by decide)).1
  · exact (hdel ("x/b", demoItemB) (by decide) (by decide)).1
  · rw [hlog]
    exact (hadd demoItemC (by decide) (by decide)).2
  · rw [hlog]
    exact (hmod demoItemV2 (by decide) demoItem (by decide) (by decide)).2
  · rw [hlog]
    exact (hdel ("x/b", demoItemB) (by decide) (by decide)).2

end Reflector
